import Mathlib

/-!
Verification of the yaghpy repository's bounded top-K selection engine
(`src/yagpy/top_org_repos.py`) and its paginated GitHub client
(`src/yagpy/yagpy.py`).

The Python code is shallowly embedded:

* CPython's `heapq.heappush` / `heapq.heappop` (the only `heapq` entry points
  the repository uses) are transcribed literally, with mutation replaced by
  `List.set` and the two internal loops (`_siftdown`, `_siftup`) driven by an
  explicit fuel argument.  The fuel bounds used by `heappush` / `heappop` are
  large enough that the fuel-exhaustion branch is never taken (this is proved
  where needed), so the functions compute exactly what CPython computes.
* `_SizeConstrainedMaxHeap` stores plain items and its
  `InvertedComparisonWrapper` is absorbed into the boolean comparison handed
  to the heap primitives (`invertedLt`), exactly mirroring
  `__lt__(self, other) = self.value > other.value`.
* Python compares tuples lexicographically and strings by code points; the
  boolean comparisons `candLtN` / `candLtQ` / `pyStrLt` transcribe that.
* `GitHub.paginate`'s HTTP error classification is embedded as a pure function
  of the response (`processResponse`), and the pagination loop of
  `GitHubOrg.OrgRepos.list_all_sources` (a `for page in paginate: ... break`)
  is embedded as `listAllLoop`, which also records the page numbers requested.
-/

namespace Yagpy

/-! ### CPython `heapq` primitives -/

variable {α : Type}

/-- CPython `heapq._siftdown(heap, startpos, pos)`: move `newitem` (logically
sitting at index `pos`) towards the root, shifting parents down while
`newitem < parent` (here: while `wlt newitem parent`).  `wlt` is the `__lt__`
the heap items expose to `heapq`.  The loop is driven by fuel; any
`fuel ≥ pos` makes the fuel-exhaustion branch unreachable because `pos`
strictly decreases. -/
def siftdownLoop (wlt : α → α → Bool) : Nat → List α → Nat → Nat → α → List α
  | 0, heap, _, pos, newitem => heap.set pos newitem
  | fuel + 1, heap, startpos, pos, newitem =>
    if startpos < pos then
      if wlt newitem (heap.getD ((pos - 1) / 2) newitem) then
        siftdownLoop wlt fuel (heap.set pos (heap.getD ((pos - 1) / 2) newitem)) startpos
          ((pos - 1) / 2) newitem
      else
        heap.set pos newitem
    else
      heap.set pos newitem

/-- CPython `heapq.heappush(heap, item)`: append `item` and sift it down
towards the root from position `len(heap) - 1`. -/
def heappush (wlt : α → α → Bool) (heap : List α) (item : α) : List α :=
  siftdownLoop wlt heap.length (heap ++ [item]) 0 heap.length item

/-- The child `_siftup` promotes: the right child `2*pos+2` when it exists
and `not heap[childpos] < heap[rightpos]`, otherwise the left child
`2*pos+1`. -/
def siftupChild (wlt : α → α → Bool) (heap : List α) (endpos pos : Nat) (newitem : α) : Nat :=
  if 2 * pos + 2 < endpos &&
      ! wlt (heap.getD (2 * pos + 1) newitem) (heap.getD (2 * pos + 2) newitem)
  then 2 * pos + 2 else 2 * pos + 1

/-- CPython `heapq._siftup(heap, pos)` (with `startpos = 0`, as used by
`heappop`): move the hole at `pos` down to a leaf, always promoting the
`wlt`-smaller child, then place `newitem` in the leaf and sift it down
towards the root.  `endpos` is `len(heap)`; the loop is driven by fuel and
any `fuel ≥ endpos` makes the fuel-exhaustion branch unreachable. -/
def siftupLoop (wlt : α → α → Bool) : Nat → List α → Nat → Nat → α → List α
  | 0, heap, _, pos, newitem => siftdownLoop wlt pos heap 0 pos newitem
  | fuel + 1, heap, endpos, pos, newitem =>
    if 2 * pos + 1 < endpos then
      siftupLoop wlt fuel
        (heap.set pos (heap.getD (siftupChild wlt heap endpos pos newitem) newitem))
        endpos (siftupChild wlt heap endpos pos newitem) newitem
    else
      siftdownLoop wlt pos heap 0 pos newitem

/-- CPython `heapq.heappop(heap)`: pop the last element; if the heap is still
non-empty, return the root, move the popped element to the root and restore
the heap shape with `_siftup`.  `IndexError` on an empty heap is `none`
(raised by `heap.pop()` before any mutation, so the heap is left unchanged). -/
def heappop (wlt : α → α → Bool) (heap : List α) : Option (α × List α) :=
  match heap.getLast?, heap.dropLast with
  | none, _ => none
  | some lastelt, [] => some (lastelt, [])
  | some lastelt, h0 :: rest =>
    some (h0, siftupLoop wlt (rest.length + 1) (lastelt :: rest) (rest.length + 1) 0 lastelt)

/-! ### `_SizeConstrainedMaxHeap` -/

/-- `_SizeConstrainedMaxHeap.InvertedComparisonWrapper.__lt__`:
`self.value > other.value`, i.e. the reflected `lt other.value self.value`. -/
def invertedLt (lt : α → α → Bool) (a b : α) : Bool := lt b a

/-- The state of a `_SizeConstrainedMaxHeap`: the validated `_max_items`
bound (`none` bypasses the size constraint) and the backing `_heap` list. -/
structure SizeConstrainedMaxHeap (α : Type) where
  max_items : Option Nat
  heap : List α

/-- `_SizeConstrainedMaxHeap.__init__(max_items)`: `ValueError` (modelled as
`Except.error` with the formatted message) when `max_items` is a negative
int; `None` means unconstrained.  (The `TypeError` branch for non-int
arguments is ruled out by typing.) -/
def mkSizeConstrainedMaxHeap (max_items : Option Int) :
    Except String (SizeConstrainedMaxHeap α) :=
  match max_items with
  | some m =>
    if m < 0 then
      Except.error ("Expected non-negative max_items, but got " ++ toString m)
    else
      Except.ok ⟨some m.toNat, []⟩
  | none => Except.ok ⟨none, []⟩

/-- `_SizeConstrainedMaxHeap.push(item)`: `heapq.heappush` with the inverted
comparison wrapper, then, when a bound is configured and the heap grew past
it, `del self._heap[self._max_items:]` — which keeps the first `max_items`
slots of the backing array. -/
def SizeConstrainedMaxHeap.push (s : SizeConstrainedMaxHeap α) (lt : α → α → Bool)
    (item : α) : SizeConstrainedMaxHeap α :=
  let h := heappush (invertedLt lt) s.heap item
  match s.max_items with
  | some m => ⟨some m, if m < h.length then h.take m else h⟩
  | none => ⟨none, h⟩

/-- `_SizeConstrainedMaxHeap.pop()`: `heapq.heappop(self._heap).value`;
`IndexError` on an empty heap is `none`. -/
def SizeConstrainedMaxHeap.pop (s : SizeConstrainedMaxHeap α) (lt : α → α → Bool) :
    Option (α × SizeConstrainedMaxHeap α) :=
  (heappop (invertedLt lt) s.heap).map fun p => (p.1, ⟨s.max_items, p.2⟩)

/-- `_SizeConstrainedMaxHeap.__bool__()`: `bool(self._heap)`. -/
def SizeConstrainedMaxHeap.toBool (s : SizeConstrainedMaxHeap α) : Bool :=
  !s.heap.isEmpty

/-- The `while heap: heap.pop()` drain loop shared by the four command
generators.  Since `pop` succeeds exactly when `__bool__` is true, the loop
is folded into a single match on `pop`; fuel `s.heap.length` is enough to
drain completely because each `pop` removes exactly one element. -/
def drainLoop (lt : α → α → Bool) : Nat → SizeConstrainedMaxHeap α → List α
  | 0, _ => []
  | fuel + 1, s =>
    match s.pop lt with
    | some p => p.1 :: drainLoop lt fuel p.2
    | none => []

/-- Full drain of a `_SizeConstrainedMaxHeap`. -/
def SizeConstrainedMaxHeap.drain (s : SizeConstrainedMaxHeap α) (lt : α → α → Bool) :
    List α :=
  drainLoop lt s.heap.length s

/-! ### Python comparisons for the candidate tuples -/

/-- Python `<` on strings: lexicographic comparison of the code-point
sequences. -/
def pyStrLt : List Char → List Char → Bool
  | _, [] => false
  | [], _ :: _ => true
  | a :: as, b :: bs => if a < b then true else if b < a then false else pyStrLt as bs

/-- Python `<` on `(int, str)` tuples, as used for the stars/forks/pulls
candidates `(count, name)`. -/
def candLtN (a b : Nat × String) : Bool :=
  if a.1 < b.1 then true else if b.1 < a.1 then false else pyStrLt a.2.data b.2.data

/-- Python `<` on `(float, str)` tuples, as used for the contrib-ratio
candidates `(num_pulls / forks_count, name)` (true division modelled
exactly in ℚ). -/
def candLtQ (a b : ℚ × String) : Bool :=
  if a.1 < b.1 then true else if b.1 < a.1 then false else pyStrLt a.2.data b.2.data

/-! ### The command generators (`GitHubTopOrgReposCommand`) -/

/-- One repository record of the outer pagination
(`hub.org(org).repos().list_all_sources()`), restricted to the fields the
commands read.  `num_pulls` stands for
`sum(1 for _ in hub.repo(...).pulls().list_all())`, the fully drained
pull-request count of the repository. -/
structure RepoRecord where
  name : String
  stargazers_count : Nat
  forks_count : Nat
  num_pulls : Nat
  deriving DecidableEq

/-- `GitHubTopOrgReposCommand._get_top_star_repos`: push
`(repo['stargazers_count'], repo['name'])` for every repository the outer
pagination yields, then drain, formatting each popped tuple as
`'{}:{}'.format(name, stars)`. -/
def getTopStarRepos (repos : List RepoRecord) (max_items : Option Int) :
    Except String (List String) :=
  (mkSizeConstrainedMaxHeap max_items).map fun heap0 =>
    (((repos.foldl (fun s repo => s.push candLtN (repo.stargazers_count, repo.name))
        heap0).drain candLtN).map fun c => c.2 ++ ":" ++ toString c.1)

/-- `⌊q⌋` computed from the reduced fraction; for the non-negative rationals
used here `num / den` (integer division) is the floor. -/
def ratFloor (q : ℚ) : Int := q.num / (q.den : Int)

/-- Decimal digits of the fractional part of a non-negative rational (used to
render a float whose value has a short exact decimal expansion). -/
def decimalDigits : Nat → ℚ → List Nat
  | 0, _ => []
  | fuel + 1, q =>
    if q = 0 then []
    else (ratFloor (q * 10)).toNat :: decimalDigits fuel (q * 10 - (ratFloor (q * 10) : Int))

/-- Python `'{}'.format(x)` for a non-negative float `x` whose value has a
short exact decimal expansion (all contrib-ratio values exercised here do):
the integer part, a dot, and the fractional digits — `"0"` when the value is
integral, since CPython renders integral floats as `n.0`. -/
def pyFloatRepr (q : ℚ) : String :=
  toString (ratFloor q) ++ "." ++
    (if (decimalDigits 17 (q - (ratFloor q : Int))).isEmpty then "0"
     else String.join ((decimalDigits 17 (q - (ratFloor q : Int))).map fun d => toString d))

/-- `GitHubTopOrgReposCommand._get_top_contribution_ratio_repos`: for every
repository the outer pagination yields whose `forks_count` is truthy
(non-zero), push `(num_pulls / forks_count, name)` — true division — then
drain and format each popped tuple as `'{}:{}'.format(name, ratio)`.
Repositories with zero forks are never pushed. -/
def getTopContribRatioRepos (repos : List RepoRecord) (max_items : Option Int) :
    Except String (List String) :=
  (mkSizeConstrainedMaxHeap max_items).map fun heap0 =>
    (((repos.foldl
        (fun s repo =>
          if repo.forks_count ≠ 0 then
            s.push candLtQ ((repo.num_pulls : ℚ) / (repo.forks_count : ℚ), repo.name)
          else s)
        heap0).drain candLtQ).map fun c => c.2 ++ ":" ++ pyFloatRepr c.1)

/-! ### The paginator (`GitHub.paginate` and its consumers) -/

/-- `GitHubOrg.OrgRepos.list_all_sources` (the same loop shape is used by
`RepoPulls.list_all`): consume `GitHub.paginate`, which requests page
`next_page` (1-based, incremented by one per request) lazily, one request per
page consumed; `break` on the first empty page, otherwise yield the page's
items in order.  `remote` maps a page number to the decoded page of the
(successful) response; the result also records the page numbers requested,
in request order.  The generator is lazy, so after the `break` no further
request is issued; fuel only needs to cover the requests actually made. -/
def listAllLoop (remote : Nat → List α) : Nat → Nat → List α × List Nat
  | _, 0 => ([], [])
  | next_page, fuel + 1 =>
    if (remote next_page).length = 0 then ([], [next_page])
    else
      (remote next_page ++ (listAllLoop remote (next_page + 1) fuel).1,
       next_page :: (listAllLoop remote (next_page + 1) fuel).2)

/-- `list_all_sources` starts the pagination at page 1. -/
def list_all_sources (remote : Nat → List α) (fuel : Nat) : List α × List Nat :=
  listAllLoop remote 1 fuel

/-- One HTTP response as seen by `GitHub.paginate`: status code, the three
rate-limit headers (absent headers are `none`; `X-RateLimit-Reset` is the
parsed epoch-seconds integer) and the request URL; `body` is the decoded
JSON payload of a successful response. -/
structure HTTPResponse (β : Type) where
  status_code : Nat
  x_ratelimit_remaining : Option String
  x_ratelimit_limit : Option String
  x_ratelimit_reset : Option Int
  url : String
  body : β

/-- Outcome of one `paginate` request: the decoded page, a generic
`requests.HTTPError` re-raised by `raise_for_status` (the Transient Request
Failure), or `RateLimitExceeded` carrying the pieces of its message: the URL,
the hourly limit (when the header is present) and the minutes until the
rate-limit window resets (when the header is present). -/
inductive PaginateOutcome (β : Type) where
  | ok (body : β)
  | httpError (status_code : Nat) (url : String)
  | rateLimitExceeded (url : String) (limit : Option String) (reset_delta_min : Option ℚ)

/-- Python `round(q)` to the nearest integer, ties to even, for a
non-negative rational (the only inputs used here). -/
def roundHalfEven (q : ℚ) : Int :=
  if q - (ratFloor q : Int) < 1 / 2 then ratFloor q
  else if (1 : ℚ) / 2 < q - (ratFloor q : Int) then ratFloor q + 1
  else if ratFloor q % 2 = 0 then ratFloor q else ratFloor q + 1

/-- Python `round(q, 2)`: round to 2 decimal places, ties to even. -/
def pyRound2 (q : ℚ) : ℚ := (roundHalfEven (q * 100) : Int) / 100

/-- The error handling of one `GitHub.paginate` request, from
`response.raise_for_status()` (which raises `requests.HTTPError` exactly for
status codes 400–599) through the 403 rate-limit reclassification:
a 403 whose `X-RateLimit-Remaining` header equals `'0'` is raised as
`RateLimitExceeded`, with `reset_delta_min` computed as
`round(max(0, (int(reset) - time.time()) / 60), 2)` when the reset header is
present; any other 4xx/5xx re-raises the generic `HTTPError`; all remaining
status codes proceed to `response.json()`. -/
def processResponse {β : Type} (resp : HTTPResponse β) (now : ℚ) : PaginateOutcome β :=
  if 400 ≤ resp.status_code ∧ resp.status_code < 600 then
    if resp.status_code = 403 ∧ resp.x_ratelimit_remaining = some "0" then
      PaginateOutcome.rateLimitExceeded resp.url resp.x_ratelimit_limit
        (resp.x_ratelimit_reset.map fun r => pyRound2 (max 0 (((r : ℚ) - now) / 60)))
    else
      PaginateOutcome.httpError resp.status_code resp.url
  else
    PaginateOutcome.ok resp.body

/-! ### Heap correctness: invariants and supporting lemmas

The heap lemmas are generic over the boolean comparison `wlt` handed to the
`heapq` primitives, linked to a linear order through a valuation `v`
(`hwlt : wlt a b = true ↔ v b < v a`, the inverted-wrapper reading).  The
invariant is the max-heap shape on `v`-values over the array encoding:
every child is `≤` its parent. -/

section HeapProofs

set_option linter.unusedSectionVars false

variable {α : Type} [Inhabited α] {β : Type} [LinearOrder β]

/-- Total list indexing (with the inhabitant as default), used to state the
heap invariants without dependent bounds. -/
def nthD (l : List α) (i : Nat) : α := l.getD i default

theorem nthD_set_self {l : List α} {i : Nat} (h : i < l.length) (a : α) :
    nthD (l.set i a) i = a := by
  simp [nthD, List.getD_eq_getElem?_getD, List.getElem?_set_self h]

theorem nthD_set_ne {l : List α} {i j : Nat} (h : i ≠ j) (a : α) :
    nthD (l.set i a) j = nthD l j := by
  simp [nthD, List.getD_eq_getElem?_getD, List.getElem?_set_ne h]

theorem getD_eq_nthD {l : List α} {i : Nat} (h : i < l.length) (d : α) :
    l.getD i d = nthD l i := by
  rw [List.getD_eq_getElem l d h, nthD, List.getD_eq_getElem l default h]

theorem nthD_append_left {l m : List α} {i : Nat} (h : i < l.length) :
    nthD (l ++ m) i = nthD l i := by
  simp [nthD, List.getD_eq_getElem?_getD, List.getElem?_append_left h]

theorem nthD_append_last (l : List α) (x : α) : nthD (l ++ [x]) l.length = x := by
  rw [nthD, List.getD_eq_getElem (l ++ [x]) default (by simp)]
  simp

theorem nthD_take {l : List α} {m i : Nat} (h : i < m) :
    nthD (l.take m) i = nthD l i := by
  simp [nthD, List.getD_eq_getElem?_getD, List.getElem?_take, h]

theorem getD_mem_or_eq (l : List α) (i : Nat) (d : α) :
    l.getD i d ∈ l ∨ l.getD i d = d := by
  rcases Nat.lt_or_ge i l.length with h | h
  · left
    rw [List.getD_eq_getElem l d h]
    exact List.getElem_mem h
  · right
    rw [List.getD_eq_getElem?_getD, List.getElem?_eq_none (by omega)]
    rfl

/-- The max-heap shape on `v`-values: every child is `≤` its parent. -/
def HeapInv (v : α → β) (l : List α) : Prop :=
  ∀ i j : Nat, (j = 2 * i + 1 ∨ j = 2 * i + 2) → j < l.length →
    v (nthD l j) ≤ v (nthD l i)

/-- Heap shape except for the edges into the hole `pos` (the hole may still
occur as a parent). -/
def HeapInvExcept (v : α → β) (l : List α) (pos : Nat) : Prop :=
  ∀ i j : Nat, (j = 2 * i + 1 ∨ j = 2 * i + 2) → j < l.length → j ≠ pos →
    v (nthD l j) ≤ v (nthD l i)

/-- Heap shape on all edges avoiding the hole `pos` entirely. -/
def HeapInvExceptHole (v : α → β) (l : List α) (pos : Nat) : Prop :=
  ∀ i j : Nat, (j = 2 * i + 1 ∨ j = 2 * i + 2) → j < l.length → j ≠ pos → i ≠ pos →
    v (nthD l j) ≤ v (nthD l i)

/-- The children of the hole `pos` are `≤` the value at the hole's parent. -/
def HoleBelowParent (v : α → β) (l : List α) (pos : Nat) : Prop :=
  0 < pos → ∀ j : Nat, (j = 2 * pos + 1 ∨ j = 2 * pos + 2) → j < l.length →
    v (nthD l j) ≤ v (nthD l ((pos - 1) / 2))

/-- In a heap, every element is `≤` the root. -/
theorem heapInv_le_root {v : α → β} {l : List α} (h : HeapInv v l) :
    ∀ i, i < l.length → v (nthD l i) ≤ v (nthD l 0) := by
  intro i
  induction i using Nat.strong_induction_on with
  | _ i ih =>
    intro hi
    rcases Nat.eq_zero_or_pos i with h0 | h0
    · subst h0
      exact le_refl _
    · have hpar : i = 2 * ((i - 1) / 2) + 1 ∨ i = 2 * ((i - 1) / 2) + 2 := by omega
      exact le_trans (h _ i hpar hi) (ih _ (by omega) (by omega))

theorem siftdownLoop_length (wlt : α → α → Bool) :
    ∀ (fuel : Nat) (heap : List α) (sp pos : Nat) (x : α),
      (siftdownLoop wlt fuel heap sp pos x).length = heap.length := by
  intro fuel
  induction fuel with
  | zero =>
    intro heap sp pos x
    simp [siftdownLoop]
  | succ n ih =>
    intro heap sp pos x
    simp only [siftdownLoop]
    split
    · split
      · rw [ih]
        simp
      · simp
    · simp

theorem siftupLoop_length (wlt : α → α → Bool) :
    ∀ (fuel : Nat) (heap : List α) (ep pos : Nat) (x : α),
      (siftupLoop wlt fuel heap ep pos x).length = heap.length := by
  intro fuel
  induction fuel with
  | zero =>
    intro heap ep pos x
    simp [siftupLoop, siftdownLoop_length]
  | succ n ih =>
    intro heap ep pos x
    simp only [siftupLoop]
    split
    · rw [ih]
      simp
    · simp [siftdownLoop_length]

theorem heappush_length (wlt : α → α → Bool) (l : List α) (x : α) :
    (heappush wlt l x).length = l.length + 1 := by
  simp [heappush, siftdownLoop_length]

theorem mem_siftdownLoop (wlt : α → α → Bool) :
    ∀ (fuel : Nat) (heap : List α) (sp pos : Nat) (x y : α),
      y ∈ siftdownLoop wlt fuel heap sp pos x → y ∈ heap ∨ y = x := by
  intro fuel
  induction fuel with
  | zero =>
    intro heap sp pos x y hy
    simp only [siftdownLoop] at hy
    exact List.mem_or_eq_of_mem_set hy
  | succ n ih =>
    intro heap sp pos x y hy
    simp only [siftdownLoop] at hy
    split at hy
    · split at hy
      · rcases ih _ _ _ _ _ hy with hy' | rfl
        · rcases List.mem_or_eq_of_mem_set hy' with hy'' | rfl
          · exact Or.inl hy''
          · rcases getD_mem_or_eq heap ((pos - 1) / 2) x with hm | he
            · exact Or.inl hm
            · exact Or.inr he
        · exact Or.inr rfl
      · exact List.mem_or_eq_of_mem_set hy
    · exact List.mem_or_eq_of_mem_set hy

theorem mem_siftupLoop (wlt : α → α → Bool) :
    ∀ (fuel : Nat) (heap : List α) (ep pos : Nat) (x y : α),
      y ∈ siftupLoop wlt fuel heap ep pos x → y ∈ heap ∨ y = x := by
  intro fuel
  induction fuel with
  | zero =>
    intro heap ep pos x y hy
    exact mem_siftdownLoop wlt _ _ _ _ _ _ hy
  | succ n ih =>
    intro heap ep pos x y hy
    simp only [siftupLoop] at hy
    split at hy
    · rcases ih _ _ _ _ _ hy with hy' | rfl
      · rcases List.mem_or_eq_of_mem_set hy' with hy'' | rfl
        · exact Or.inl hy''
        · rcases getD_mem_or_eq heap (siftupChild wlt heap ep pos x) x with hm | he
          · exact Or.inl hm
          · exact Or.inr he
      · exact Or.inr rfl
    · exact mem_siftdownLoop wlt _ _ _ _ _ _ hy

theorem mem_heappush (wlt : α → α → Bool) (l : List α) (x y : α)
    (hy : y ∈ heappush wlt l x) : y ∈ l ∨ y = x := by
  rcases mem_siftdownLoop wlt _ _ _ _ _ _ hy with hy' | rfl
  · rcases List.mem_append.mp hy' with h | h
    · exact Or.inl h
    · simp at h
      exact Or.inr h
  · exact Or.inr rfl

/-- Bubble-up correctness: if the heap is well-shaped except at the hole
`pos` (where `x` is logically placed), `_siftdown` restores the full heap
shape. -/
theorem siftdownLoop_heapInv {v : α → β} {wlt : α → α → Bool}
    (hwlt : ∀ a b, wlt a b = true ↔ v b < v a) :
    ∀ (fuel pos : Nat) (heap : List α) (x : α),
      pos ≤ fuel → pos < heap.length →
      HeapInvExcept v (heap.set pos x) pos →
      HoleBelowParent v (heap.set pos x) pos →
      HeapInv v (siftdownLoop wlt fuel heap 0 pos x) := by
  intro fuel
  induction fuel with
  | zero =>
    intro pos heap x hfuel hpos hA hB
    have h0 : pos = 0 := by omega
    subst h0
    simp only [siftdownLoop]
    intro i j hij hj
    exact hA i j hij hj (by omega)
  | succ n ih =>
    intro pos heap x hfuel hpos hA hB
    have hg : ∀ k, k ≠ pos → nthD (heap.set pos x) k = nthD heap k := by
      intro k hk
      exact nthD_set_ne (Ne.symm hk) x
    have hgpos : nthD (heap.set pos x) pos = x := nthD_set_self hpos x
    simp only [siftdownLoop]
    split
    case isTrue hpos0 =>
      have hplen : (pos - 1) / 2 < heap.length := by omega
      split
      case isTrue hcmp =>
        rw [getD_eq_nthD hplen] at hcmp
        have hlt : v (nthD heap ((pos - 1) / 2)) < v x := (hwlt _ _).mp hcmp
        rw [getD_eq_nthD hplen]
        have hg2 : ∀ k, k ≠ pos → k ≠ (pos - 1) / 2 →
            nthD ((heap.set pos (nthD heap ((pos - 1) / 2))).set ((pos - 1) / 2) x) k
              = nthD heap k := by
          intro k hk1 hk2
          rw [nthD_set_ne (Ne.symm hk2), nthD_set_ne (Ne.symm hk1)]
        have hg2p : nthD ((heap.set pos (nthD heap ((pos - 1) / 2))).set ((pos - 1) / 2) x)
            ((pos - 1) / 2) = x :=
          nthD_set_self (by simp only [List.length_set]; omega) x
        have hg2pos : nthD ((heap.set pos (nthD heap ((pos - 1) / 2))).set ((pos - 1) / 2) x)
            pos = nthD heap ((pos - 1) / 2) := by
          rw [nthD_set_ne (show (pos - 1) / 2 ≠ pos by omega), nthD_set_self hpos]
        apply ih ((pos - 1) / 2) _ x (by omega) (by simp only [List.length_set]; omega)
        · intro i j hij hj hjp
          simp only [List.length_set] at hj
          by_cases hjpos : j = pos
          · have hi : i = (pos - 1) / 2 := by omega
            rw [hjpos, hi, hg2pos, hg2p]
            exact le_of_lt hlt
          · by_cases hipos : i = pos
            · rw [hipos, hg2 j hjpos hjp, hg2pos]
              have hBj := hB hpos0 j (by omega) (by simp only [List.length_set]; omega)
              rwa [hg j hjpos, hg ((pos - 1) / 2) (by omega)] at hBj
            · by_cases hip : i = (pos - 1) / 2
              · rw [hip, hg2 j hjpos hjp, hg2p]
                have hAj := hA ((pos - 1) / 2) j (by omega)
                  (by simp only [List.length_set]; omega) hjpos
                rw [hg j hjpos, hg ((pos - 1) / 2) (by omega)] at hAj
                exact le_trans hAj (le_of_lt hlt)
              · rw [hg2 j hjpos hjp, hg2 i hipos hip]
                have hAj := hA i j hij (by simp only [List.length_set]; omega) hjpos
                rwa [hg j hjpos, hg i hipos] at hAj
        · intro hp0 j hij hj
          simp only [List.length_set] at hj
          have hq1 : ((pos - 1) / 2 - 1) / 2 ≠ pos := by omega
          have hq2 : ((pos - 1) / 2 - 1) / 2 ≠ (pos - 1) / 2 := by omega
          rw [hg2 (((pos - 1) / 2 - 1) / 2) hq1 hq2]
          have hpq : (pos - 1) / 2 = 2 * (((pos - 1) / 2 - 1) / 2) + 1 ∨
              (pos - 1) / 2 = 2 * (((pos - 1) / 2 - 1) / 2) + 2 := by omega
          have hple2 : v (nthD heap ((pos - 1) / 2))
              ≤ v (nthD heap (((pos - 1) / 2 - 1) / 2)) := by
            have := hA (((pos - 1) / 2 - 1) / 2) ((pos - 1) / 2) hpq
              (by simp only [List.length_set]; omega) (by omega)
            rwa [hg ((pos - 1) / 2) (by omega), hg (((pos - 1) / 2 - 1) / 2) (by omega)]
              at this
          by_cases hjpos : j = pos
          · rw [hjpos, hg2pos]
            exact hple2
          · have hjp : j ≠ (pos - 1) / 2 := by omega
            rw [hg2 j hjpos hjp]
            have hAj := hA ((pos - 1) / 2) j hij (by simp only [List.length_set]; omega) hjpos
            rw [hg j hjpos, hg ((pos - 1) / 2) (by omega)] at hAj
            exact le_trans hAj hple2
      case isFalse hcmp =>
        rw [getD_eq_nthD hplen] at hcmp
        have hple : v x ≤ v (nthD heap ((pos - 1) / 2)) := by
          by_cases hb : wlt x (nthD heap ((pos - 1) / 2)) = true
          · exact absurd hb hcmp
          · exact not_lt.mp fun hl => hb ((hwlt _ _).mpr hl)
        intro i j hij hj
        by_cases hjp : j = pos
        · have hi : i = (pos - 1) / 2 := by omega
          rw [hjp, hi, hgpos, hg ((pos - 1) / 2) (by omega)]
          exact hple
        · exact hA i j hij hj hjp
    case isFalse hpos0 =>
      have h0 : pos = 0 := by omega
      subst h0
      intro i j hij hj
      exact hA i j hij hj (by omega)


/-- `heappush` preserves the heap shape. -/
theorem heappush_heapInv {v : α → β} {wlt : α → α → Bool}
    (hwlt : ∀ a b, wlt a b = true ↔ v b < v a) {l : List α} (x : α)
    (h : HeapInv v l) : HeapInv v (heappush wlt l x) := by
  apply siftdownLoop_heapInv hwlt l.length l.length (l ++ [x]) x (le_refl _) (by simp)
  · intro i j hij hj hjne
    simp only [List.length_set, List.length_append, List.length_singleton] at hj
    have hjl : j < l.length := by omega
    have hil : i < l.length := by omega
    have hset : ∀ k, k < l.length → nthD ((l ++ [x]).set l.length x) k = nthD l k := by
      intro k hk
      rw [nthD_set_ne (by omega), nthD_append_left hk]
    rw [hset j hjl, hset i hil]
    exact h i j hij hjl
  · intro hpos j hij hj
    simp only [List.length_set, List.length_append, List.length_singleton] at hj
    exact absurd hj (by omega)

/-- A prefix of a heap is a heap (truncation keeps the shape). -/
theorem heapInv_take {v : α → β} {l : List α} (h : HeapInv v l) (m : Nat) :
    HeapInv v (l.take m) := by
  intro i j hij hj
  simp only [List.length_take] at hj
  have hjm : j < m := by omega
  have hjl : j < l.length := by omega
  have him : i < m := by omega
  rw [nthD_take hjm, nthD_take him]
  exact h i j hij hjl

theorem nthD_cons_zero (a : α) (t : List α) : nthD (a :: t) 0 = a := rfl

theorem nthD_cons_succ (a : α) (t : List α) (k : Nat) : nthD (a :: t) (k + 1) = nthD t k := by
  simp [nthD]

theorem mem_exists_nthD {l : List α} {y : α} (hy : y ∈ l) :
    ∃ i, i < l.length ∧ nthD l i = y := by
  rcases List.mem_iff_get.mp hy with ⟨⟨i, hi⟩, hget⟩
  exact ⟨i, hi, by rw [nthD, List.getD_eq_getElem l default hi]; exact hget⟩

/-- The promoted child is one of the two children, and is in bounds when the
left child is. -/
theorem siftupChild_spec (wlt : α → α → Bool) (heap : List α) (ep pos : Nat) (x : α)
    (h : 2 * pos + 1 < ep) :
    siftupChild wlt heap ep pos x = 2 * pos + 1 ∨
      (siftupChild wlt heap ep pos x = 2 * pos + 2 ∧ 2 * pos + 2 < ep) := by
  rw [siftupChild]
  split
  case isTrue hcond =>
    right
    refine ⟨rfl, ?_⟩
    have := (Bool.and_eq_true _ _).mp hcond
    exact of_decide_eq_true this.1
  case isFalse hcond =>
    left
    rfl

/-- Both children in bounds are `≤` the promoted child (in `v`-value). -/
theorem siftupChild_max {v : α → β} {wlt : α → α → Bool}
    (hwlt : ∀ a b, wlt a b = true ↔ v b < v a)
    (heap : List α) (pos : Nat) (x : α) (h : 2 * pos + 1 < heap.length) :
    ∀ j, (j = 2 * pos + 1 ∨ j = 2 * pos + 2) → j < heap.length →
      v (nthD heap j) ≤ v (nthD heap (siftupChild wlt heap heap.length pos x)) := by
  intro j hij hj
  rw [siftupChild]
  split
  case isTrue hcond =>
    have hcond' := (Bool.and_eq_true _ _).mp hcond
    have hrlen : 2 * pos + 2 < heap.length := of_decide_eq_true hcond'.1
    have hnot : ¬ wlt (heap.getD (2 * pos + 1) x) (heap.getD (2 * pos + 2) x) = true := by
      simpa using hcond'.2
    rw [getD_eq_nthD (by omega) x, getD_eq_nthD hrlen x] at hnot
    have hle : v (nthD heap (2 * pos + 1)) ≤ v (nthD heap (2 * pos + 2)) :=
      not_lt.mp fun hl => hnot ((hwlt _ _).mpr hl)
    rcases hij with rfl | rfl
    · exact hle
    · exact le_refl _
  case isFalse hcond =>
    rcases hij with rfl | rfl
    · exact le_refl _
    · have hrlen : 2 * pos + 2 < heap.length := hj
      have hw : wlt (heap.getD (2 * pos + 1) x) (heap.getD (2 * pos + 2) x) = true := by
        rcases Bool.eq_false_or_eq_true
          (wlt (heap.getD (2 * pos + 1) x) (heap.getD (2 * pos + 2) x)) with hb | hb
        · exact hb
        · exfalso
          apply hcond
          rw [Bool.and_eq_true]
          refine ⟨decide_eq_true hrlen, ?_⟩
          rw [hb]
          rfl
      rw [getD_eq_nthD (by omega) x, getD_eq_nthD hrlen x] at hw
      exact le_of_lt ((hwlt _ _).mp hw)

/-- Sift-down-to-leaf correctness: if the heap is well-shaped on all edges
avoiding the hole `pos`, and the hole's children are below the hole's
parent, `_siftup` restores the full heap shape. -/
theorem siftupLoop_heapInv {v : α → β} {wlt : α → α → Bool}
    (hwlt : ∀ a b, wlt a b = true ↔ v b < v a) :
    ∀ (fuel pos : Nat) (heap : List α) (x : α),
      heap.length ≤ fuel + pos → pos < heap.length →
      HeapInvExceptHole v heap pos →
      HoleBelowParent v heap pos →
      HeapInv v (siftupLoop wlt fuel heap heap.length pos x) := by
  intro fuel
  induction fuel with
  | zero =>
    intro pos heap x hfuel hpos hA hB
    exact absurd hpos (by omega)
  | succ n ih =>
    intro pos heap x hfuel hpos hA hB
    simp only [siftupLoop]
    split
    case isTrue hc =>
      have hcp := siftupChild_spec wlt heap heap.length pos x hc
      have hcplen : siftupChild wlt heap heap.length pos x < heap.length := by
        rcases hcp with hcp | ⟨hcp, hlt2⟩ <;> omega
      have hcpchild : siftupChild wlt heap heap.length pos x = 2 * pos + 1 ∨
          siftupChild wlt heap heap.length pos x = 2 * pos + 2 := by
        rcases hcp with hcp | ⟨hcp, _⟩ <;> [exact Or.inl hcp; exact Or.inr hcp]
      have hcpgt : pos < siftupChild wlt heap heap.length pos x := by omega
      have hcpv : heap.getD (siftupChild wlt heap heap.length pos x) x
          = nthD heap (siftupChild wlt heap heap.length pos x) := getD_eq_nthD hcplen x
      rw [hcpv]
      have hset : ∀ k, k ≠ pos →
          nthD (heap.set pos (nthD heap (siftupChild wlt heap heap.length pos x))) k
            = nthD heap k := by
        intro k hk
        exact nthD_set_ne (Ne.symm hk) _
      have hsetpos :
          nthD (heap.set pos (nthD heap (siftupChild wlt heap heap.length pos x))) pos
            = nthD heap (siftupChild wlt heap heap.length pos x) :=
        nthD_set_self hpos _
      have h3 : HeapInvExceptHole v
          (heap.set pos (nthD heap (siftupChild wlt heap heap.length pos x)))
          (siftupChild wlt heap heap.length pos x) := by
        intro i j hij hj hjcp hicp
        simp only [List.length_set] at hj
        by_cases hjpos : j = pos
        · have hpos1 : 0 < pos := by omega
          have hi : i = (pos - 1) / 2 := by omega
          rw [hjpos, hi, hsetpos, hset ((pos - 1) / 2) (by omega)]
          exact hB hpos1 (siftupChild wlt heap heap.length pos x) hcpchild hcplen
        · by_cases hipos : i = pos
          · rw [hipos, hset j hjpos, hsetpos]
            exact siftupChild_max hwlt heap pos x hc j (by omega) hj
          · rw [hset j hjpos, hset i hipos]
            exact hA i j hij hj hjpos hipos
      have h4 : HoleBelowParent v
          (heap.set pos (nthD heap (siftupChild wlt heap heap.length pos x)))
          (siftupChild wlt heap heap.length pos x) := by
        intro hcp0 j hij hj
        simp only [List.length_set] at hj
        have hpar : (siftupChild wlt heap heap.length pos x - 1) / 2 = pos := by omega
        have hjpos : j ≠ pos := by omega
        rw [hpar, hsetpos, hset j hjpos]
        exact hA (siftupChild wlt heap heap.length pos x) j (by omega) hj hjpos (by omega)
      have hmain := ih (siftupChild wlt heap heap.length pos x)
        (heap.set pos (nthD heap (siftupChild wlt heap heap.length pos x))) x
        (by simp only [List.length_set]; omega) (by simp only [List.length_set]; omega) h3 h4
      have hlen : (heap.set pos (nthD heap (siftupChild wlt heap heap.length pos x))).length
          = heap.length := by simp
      rw [hlen] at hmain
      exact hmain
    case isFalse hc =>
      apply siftdownLoop_heapInv hwlt pos pos heap x (le_refl _) hpos
      · intro i j hij hj hjp
        simp only [List.length_set] at hj
        by_cases hipos : i = pos
        · exact absurd hj (by omega)
        · rw [nthD_set_ne (Ne.symm hjp) x, nthD_set_ne (Ne.symm hipos) x]
          exact hA i j hij hj hjp hipos
      · intro hp0 j hij hj
        simp only [List.length_set] at hj
        exact absurd hj (by omega)

/-- `heappop` fails exactly on the empty heap. -/
theorem heappop_eq_none_iff (wlt : α → α → Bool) (l : List α) :
    heappop wlt l = none ↔ l = [] := by
  cases l with
  | nil => simp [heappop]
  | cons a as =>
    rw [heappop, List.getLast?_eq_getLast (a :: as) (by simp)]
    cases h : (a :: as).dropLast <;> simp

/-- `heappop` on a well-shaped non-empty heap returns the root — a maximum
element — and leaves a well-shaped heap of the remaining elements. -/
theorem heappop_correct {v : α → β} {wlt : α → α → Bool}
    (hwlt : ∀ a b, wlt a b = true ↔ v b < v a) {l : List α} (h : HeapInv v l)
    {w : α} {l' : List α} (hpop : heappop wlt l = some (w, l')) :
    HeapInv v l' ∧ l'.length = l.length - 1 ∧ (∀ y ∈ l', y ∈ l) ∧ w ∈ l ∧
      ∀ y ∈ l, v y ≤ v w := by
  have hne : l ≠ [] := by
    intro h0
    rw [h0, (heappop_eq_none_iff wlt []).mpr rfl] at hpop
    exact Option.noConfusion hpop
  have hl := List.dropLast_append_getLast hne
  rw [heappop, List.getLast?_eq_getLast l hne] at hpop
  cases hd : l.dropLast with
  | nil =>
    rw [hd] at hpop
    simp only [Option.some.injEq, Prod.mk.injEq] at hpop
    obtain ⟨rfl, rfl⟩ := hpop
    have hl1 : l = [l.getLast hne] := by
      conv_lhs => rw [← hl, hd]
      rfl
    refine ⟨?_, ?_, ?_, List.getLast_mem hne, ?_⟩
    · intro i j hij hj
      exact absurd hj (by simp)
    · have hlen1 : l.length = 1 := by
        conv_lhs => rw [hl1]
        rfl
      simp [hlen1]
    · simp
    · intro y hy
      have hy' : y = l.getLast hne := by
        rw [hl1] at hy
        simpa using hy
      rw [hy']
  | cons h0 rest =>
    rw [hd] at hpop
    simp only [Option.some.injEq, Prod.mk.injEq] at hpop
    obtain ⟨rfl, rfl⟩ := hpop
    obtain ⟨la, hla⟩ : ∃ la, la = l.getLast hne := ⟨_, rfl⟩
    rw [← hla]
    have hlform : l = (h0 :: rest) ++ [la] := by
      conv_lhs => rw [← hl, hd]
      rw [hla]
    have hlen2 : l.length = rest.length + 2 := by
      rw [hlform]
      simp
    have hla_mem : la ∈ l := by
      rw [hlform]
      simp
    have hrest_mem : ∀ y ∈ rest, y ∈ l := by
      intro y hy
      rw [hlform]
      simp [hy]
    have hh0_mem : h0 ∈ l := by
      rw [hlform]
      simp
    have hnth0 : nthD l 0 = h0 := by
      rw [hlform]
      rfl
    have hnth : ∀ k, 1 ≤ k → k ≤ rest.length →
        nthD (la :: rest) k = nthD l k := by
      intro k h1 h2
      rcases Nat.exists_eq_add_of_le h1 with ⟨k', rfl⟩
      rw [Nat.add_comm 1 k', nthD_cons_succ, hlform,
        nthD_append_left (by simp; omega), nthD_cons_succ]
    have hA2 : HeapInvExceptHole v (la :: rest) 0 := by
      intro i j hij hj hj0 hi0
      simp only [List.length_cons] at hj
      rw [hnth j (by omega) (by omega), hnth i (by omega) (by omega)]
      exact h i j hij (by omega)
    have hgoal : HeapInv v (siftupLoop wlt (rest.length + 1) (la :: rest)
        (rest.length + 1) 0 la) := by
      have hlencons : (la :: rest).length = rest.length + 1 := by simp
      rw [← hlencons]
      exact siftupLoop_heapInv hwlt (rest.length + 1) 0 _ _ (by simp) (by simp) hA2
        (fun hfalse => absurd hfalse (lt_irrefl 0))
    refine ⟨hgoal, ?_, ?_, hh0_mem, ?_⟩
    · rw [siftupLoop_length]
      simp [hlen2]
    · intro y hy
      rcases mem_siftupLoop wlt _ _ _ _ _ _ hy with hy' | rfl
      · rcases List.mem_cons.mp hy' with rfl | hy''
        · exact hla_mem
        · exact hrest_mem y hy''
      · exact hla_mem
    · intro y hy
      rcases mem_exists_nthD hy with ⟨i, hi, rfl⟩
      have := heapInv_le_root h i hi
      rwa [hnth0] at this

/-- `pop` fails (the `IndexError` of `heapq.heappop`) exactly when the
backing heap is empty. -/
theorem pop_eq_none_iff (lt : α → α → Bool) (s : SizeConstrainedMaxHeap α) :
    s.pop lt = none ↔ s.heap = [] := by
  rw [SizeConstrainedMaxHeap.pop, Option.map_eq_none']
  exact heappop_eq_none_iff _ _

theorem push_heapInv {v : α → β} {lt : α → α → Bool}
    (hwlt : ∀ a b, invertedLt lt a b = true ↔ v b < v a)
    (s : SizeConstrainedMaxHeap α) (x : α) (h : HeapInv v s.heap) :
    HeapInv v ((s.push lt x).heap) := by
  obtain ⟨mi, hp⟩ := s
  cases mi with
  | none => exact heappush_heapInv hwlt x h
  | some m =>
    show HeapInv v (if m < (heappush (invertedLt lt) hp x).length
        then (heappush (invertedLt lt) hp x).take m
        else heappush (invertedLt lt) hp x)
    split
    · exact heapInv_take (heappush_heapInv hwlt x h) m
    · exact heappush_heapInv hwlt x h

theorem mem_push {lt : α → α → Bool} (s : SizeConstrainedMaxHeap α) (x y : α)
    (hy : y ∈ (s.push lt x).heap) : y ∈ s.heap ∨ y = x := by
  obtain ⟨mi, hp⟩ := s
  cases mi with
  | none => exact mem_heappush _ _ _ _ hy
  | some m =>
    have hy' : y ∈ (if m < (heappush (invertedLt lt) hp x).length
        then (heappush (invertedLt lt) hp x).take m
        else heappush (invertedLt lt) hp x) := hy
    split at hy'
    · exact mem_heappush _ _ _ _ (List.mem_of_mem_take hy')
    · exact mem_heappush _ _ _ _ hy'

/-- With `max_items = 0` every push immediately truncates the heap to `[]`. -/
theorem push_max0 {lt : α → α → Bool} (s : SizeConstrainedMaxHeap α) (x : α)
    (h : s.max_items = some 0) :
    (s.push lt x).heap = [] ∧ (s.push lt x).max_items = some 0 := by
  obtain ⟨mi, hp⟩ := s
  have h' : mi = some 0 := h
  subst h'
  constructor
  · show (if 0 < (heappush (invertedLt lt) hp x).length
        then (heappush (invertedLt lt) hp x).take 0
        else heappush (invertedLt lt) hp x) = []
    rw [if_pos]
    · exact List.take_zero _
    · rw [heappush_length]
      omega
  · rfl

theorem push_max_items {lt : α → α → Bool} (s : SizeConstrainedMaxHeap α) (x : α) :
    (s.push lt x).max_items = s.max_items := by
  obtain ⟨mi, hp⟩ := s
  cases mi <;> rfl

/-- The drain loop of a well-shaped selector yields a `v`-non-increasing
sequence drawn from the selector's contents. -/
theorem drainLoop_correct {v : α → β} {lt : α → α → Bool}
    (hwlt : ∀ a b, invertedLt lt a b = true ↔ v b < v a) :
    ∀ (fuel : Nat) (s : SizeConstrainedMaxHeap α), HeapInv v s.heap →
      (drainLoop lt fuel s).Pairwise (fun a b => v b ≤ v a) ∧
        ∀ y ∈ drainLoop lt fuel s, y ∈ s.heap := by
  intro fuel
  induction fuel with
  | zero =>
    intro s h
    simp [drainLoop]
  | succ n ih =>
    intro s h
    rw [drainLoop]
    rcases hmap : heappop (invertedLt lt) s.heap with _ | ⟨w2, l2⟩
    · have hpop : s.pop lt = none := by
        rw [SizeConstrainedMaxHeap.pop, hmap]
        rfl
      rw [hpop]
      simp
    · have hpop : s.pop lt = some (w2, ⟨s.max_items, l2⟩) := by
        rw [SizeConstrainedMaxHeap.pop, hmap]
        rfl
      rw [hpop]
      obtain ⟨hinv2, hlen2, hsub2, hwmem, hmax⟩ := heappop_correct hwlt h hmap
      have hih := ih ⟨s.max_items, l2⟩ hinv2
      constructor
      · rw [List.pairwise_cons]
        exact ⟨fun y hy => hmax y (hsub2 y (hih.2 y hy)), hih.1⟩
      · intro y hy
        rcases List.mem_cons.mp hy with rfl | hy'
        · exact hwmem
        · exact hsub2 y (hih.2 y hy')

/-- Pushing a candidate per scanned item preserves the heap shape. -/
theorem foldl_push_heapInv {v : α → β} {lt : α → α → Bool}
    (hwlt : ∀ a b, invertedLt lt a b = true ↔ v b < v a) :
    ∀ (xs : List α) (s : SizeConstrainedMaxHeap α), HeapInv v s.heap →
      HeapInv v ((xs.foldl (fun t x => t.push lt x) s).heap) := by
  intro xs
  induction xs with
  | nil =>
    intro s h
    exact h
  | cons x xs ih =>
    intro s h
    exact ih _ (push_heapInv hwlt _ _ h)

theorem foldl_condPush_heapInv {γ : Type} {v : α → β} {lt : α → α → Bool}
    (hwlt : ∀ a b, invertedLt lt a b = true ↔ v b < v a)
    (cond : γ → Prop) [DecidablePred cond] (cand : γ → α) :
    ∀ (gs : List γ) (s : SizeConstrainedMaxHeap α), HeapInv v s.heap →
      HeapInv v ((gs.foldl (fun t g => if cond g then t.push lt (cand g) else t) s).heap) := by
  intro gs
  induction gs with
  | nil =>
    intro s h
    exact h
  | cons g gs ih =>
    intro s h
    rw [List.foldl_cons]
    by_cases hc : cond g
    · rw [if_pos hc]
      exact ih _ (push_heapInv hwlt _ _ h)
    · rw [if_neg hc]
      exact ih _ h

/-- Every element of the selector after the scan was pushed by some scanned
item (or was already present). -/
theorem mem_foldl_condPush {γ : Type} (lt : α → α → Bool)
    (cond : γ → Prop) [DecidablePred cond] (cand : γ → α) :
    ∀ (gs : List γ) (s : SizeConstrainedMaxHeap α) (y : α),
      y ∈ ((gs.foldl (fun t g => if cond g then t.push lt (cand g) else t) s).heap) →
        y ∈ s.heap ∨ ∃ g ∈ gs, cond g ∧ y = cand g := by
  intro gs
  induction gs with
  | nil =>
    intro s y hy
    exact Or.inl hy
  | cons g gs ih =>
    intro s y hy
    rw [List.foldl_cons] at hy
    by_cases hc : cond g
    · rw [if_pos hc] at hy
      rcases ih _ y hy with hy' | ⟨g', hg', hcg', rfl⟩
      · rcases mem_push _ _ _ hy' with hy'' | rfl
        · exact Or.inl hy''
        · exact Or.inr ⟨g, List.mem_cons_self _ _, hc, rfl⟩
      · exact Or.inr ⟨g', List.mem_cons_of_mem _ hg', hcg', rfl⟩
    · rw [if_neg hc] at hy
      rcases ih _ y hy with hy' | ⟨g', hg', hcg', rfl⟩
      · exact Or.inl hy'
      · exact Or.inr ⟨g', List.mem_cons_of_mem _ hg', hcg', rfl⟩

/-- Scanning with a skip condition is scanning the filtered list: skipped
items contribute nothing to the selector. -/
theorem foldl_condPush_eq_filter {γ : Type} (lt : α → α → Bool)
    (cond : γ → Prop) [DecidablePred cond] (cand : γ → α) :
    ∀ (gs : List γ) (s : SizeConstrainedMaxHeap α),
      gs.foldl (fun t g => if cond g then t.push lt (cand g) else t) s
        = (gs.filter (fun g => decide (cond g))).foldl (fun t g => t.push lt (cand g)) s := by
  intro gs
  induction gs with
  | nil =>
    intro s
    rfl
  | cons g gs ih =>
    intro s
    by_cases hc : cond g
    · rw [List.foldl_cons, if_pos hc, List.filter_cons_of_pos (by simpa using hc),
        List.foldl_cons, ih]
    · rw [List.foldl_cons, if_neg hc, List.filter_cons_of_neg (by simpa using hc), ih]

end HeapProofs

/-! ### The candidate comparisons implement the lexicographic order -/

/-- `pyStrLt` is the strict lexicographic order on code-point sequences. -/
theorem pyStrLt_iff : ∀ s t : List Char, pyStrLt s t = true ↔ List.Lex (· < ·) s t := by
  intro s
  induction s with
  | nil =>
    intro t
    cases t with
    | nil =>
      constructor
      · intro h
        simp [pyStrLt] at h
      · intro h
        cases h
    | cons b bs =>
      constructor
      · intro _
        exact List.Lex.nil
      · intro _
        rfl
  | cons a as ih =>
    intro t
    cases t with
    | nil =>
      constructor
      · intro h
        simp [pyStrLt] at h
      · intro h
        cases h
    | cons b bs =>
      rw [pyStrLt]
      by_cases hab : a < b
      · simp only [if_pos hab]
        constructor
        · intro _
          exact List.Lex.rel hab
        · intro _
          trivial
      · by_cases hba : b < a
        · simp only [if_neg hab, if_pos hba]
          constructor
          · intro hfalse
            exact absurd hfalse (by simp)
          · intro hlex
            exfalso
            cases hlex with
            | rel h => exact hab h
            | cons h => exact lt_irrefl a hba
        · have heq : a = b := le_antisymm (not_lt.mp hba) (not_lt.mp hab)
          subst heq
          simp only [if_neg hab, if_neg hba]
          constructor
          · intro hrec
            exact List.Lex.cons ((ih bs).mp hrec)
          · intro hlex
            cases hlex with
            | rel h => exact absurd h hab
            | cons h => exact (ih bs).mpr h

/-- Valuation of an `(int, str)` candidate tuple into the lexicographic
order that Python's tuple-and-string comparison implements. -/
def candValN (c : Nat × String) : Nat ×ₗ List Char := toLex (c.1, c.2.data)

/-- Valuation of a `(float, str)` candidate tuple into the lexicographic
order that Python's tuple-and-string comparison implements. -/
def candValQ (c : ℚ × String) : ℚ ×ₗ List Char := toLex (c.1, c.2.data)

theorem candLtN_iff (a b : Nat × String) :
    candLtN a b = true ↔ candValN a < candValN b := by
  rw [candValN, candValN, Prod.Lex.lt_iff, candLtN]
  by_cases h1 : a.1 < b.1
  · simp only [if_pos h1]
    exact ⟨fun _ => Or.inl h1, fun _ => trivial⟩
  · by_cases h2 : b.1 < a.1
    · simp only [if_neg h1, if_pos h2]
      constructor
      · intro hfalse
        exact absurd hfalse (by simp)
      · rintro (hlt | ⟨heq, _⟩)
        · exact absurd hlt h1
        · rw [heq] at h2
          exact absurd h2 (lt_irrefl _)
    · have heq : a.1 = b.1 := le_antisymm (not_lt.mp h2) (not_lt.mp h1)
      simp only [if_neg h1, if_neg h2]
      constructor
      · intro hlex
        exact Or.inr ⟨heq, (pyStrLt_iff _ _).mp hlex⟩
      · rintro (hlt | ⟨_, hlex⟩)
        · exact absurd hlt h1
        · exact (pyStrLt_iff _ _).mpr hlex

theorem candLtQ_iff (a b : ℚ × String) :
    candLtQ a b = true ↔ candValQ a < candValQ b := by
  rw [candValQ, candValQ, Prod.Lex.lt_iff, candLtQ]
  by_cases h1 : a.1 < b.1
  · simp only [if_pos h1]
    exact ⟨fun _ => Or.inl h1, fun _ => trivial⟩
  · by_cases h2 : b.1 < a.1
    · simp only [if_neg h1, if_pos h2]
      constructor
      · intro hfalse
        exact absurd hfalse (by simp)
      · rintro (hlt | ⟨heq, _⟩)
        · exact absurd hlt h1
        · rw [heq] at h2
          exact absurd h2 (lt_irrefl _)
    · have heq : a.1 = b.1 := le_antisymm (not_lt.mp h2) (not_lt.mp h1)
      simp only [if_neg h1, if_neg h2]
      constructor
      · intro hlex
        exact Or.inr ⟨heq, (pyStrLt_iff _ _).mp hlex⟩
      · rintro (hlt | ⟨_, hlex⟩)
        · exact absurd hlt h1
        · exact (pyStrLt_iff _ _).mpr hlex

/-- The inverted-wrapper comparison over `candLtN`, read through the
valuation. -/
theorem invertedLt_candLtN (a b : Nat × String) :
    invertedLt candLtN a b = true ↔ candValN b < candValN a :=
  candLtN_iff b a

theorem invertedLt_candLtQ (a b : ℚ × String) :
    invertedLt candLtQ a b = true ↔ candValQ b < candValQ a :=
  candLtQ_iff b a

theorem candValQ_le_key {a b : ℚ × String} (h : candValQ b ≤ candValQ a) : b.1 ≤ a.1 := by
  rcases (Prod.Lex.le_iff _ _).mp h with hlt | ⟨heq, _⟩
  · exact le_of_lt hlt
  · exact le_of_eq heq

theorem candValN_le_parts {a b : Nat × String} (h : candValN b ≤ candValN a) :
    b.1 < a.1 ∨ (b.1 = a.1 ∧ b.2.data ≤ a.2.data) :=
  (Prod.Lex.le_iff _ _).mp h

/-! ### Further supporting lemmas -/

theorem heapInv_nil {α β : Type} [Inhabited α] [LinearOrder β] (v : α → β) :
    HeapInv v ([] : List α) := by
  intro i j hij hj
  exact absurd hj (by simp)

theorem nthD_eq_get {α : Type} [Inhabited α] {l : List α} {i : Nat} (h : i < l.length) :
    nthD l i = l.get ⟨i, h⟩ := by
  rw [nthD, List.getD_eq_getElem l default h]
  rfl

/-- A successful construction always starts with an empty heap. -/
theorem mk_ok_heap {α : Type} {m : Option Int} {s : SizeConstrainedMaxHeap α}
    (h : mkSizeConstrainedMaxHeap m = Except.ok s) : s.heap = [] := by
  cases m with
  | none =>
    rw [mkSizeConstrainedMaxHeap] at h
    cases h
    rfl
  | some m =>
    rw [mkSizeConstrainedMaxHeap] at h
    split at h
    · cases h
    · cases h
      rfl

/-- Filtering a list in which `d` occurs exactly once and every other
element fails the predicate yields `[d]`. -/
theorem filter_eq_single {γ : Type} [DecidableEq γ] (p : γ → Bool) (d : γ)
    (hd : p d = true) :
    ∀ gs : List γ, d ∈ gs → gs.count d = 1 → (∀ g ∈ gs, g = d ∨ p g = false) →
      gs.filter p = [d] := by
  intro gs
  induction gs with
  | nil =>
    intro hmem _ _
    simp at hmem
  | cons g gs ih =>
    intro hmem hcount hall
    by_cases hg : g = d
    · subst hg
      rw [List.filter_cons_of_pos hd]
      have hnot : g ∉ gs := by
        rw [List.count_cons_self] at hcount
        exact List.count_eq_zero.mp (by omega)
      have hnil : gs.filter p = [] := by
        rw [List.filter_eq_nil]
        intro a ha
        rcases hall a (List.mem_cons_of_mem _ ha) with rfl | hp
        · exact absurd ha hnot
        · simp [hp]
      rw [hnil]
    · have hpg : p g = false := by
        rcases hall g (List.mem_cons_self _ _) with rfl | hp
        · exact absurd rfl hg
        · exact hp
      rw [List.filter_cons_of_neg (by simp [hpg])]
      apply ih
      · rcases List.mem_cons.mp hmem with rfl | hm
        · exact absurd rfl hg
        · exact hm
      · rw [List.count_cons] at hcount
        simp only [beq_iff_eq, if_neg hg] at hcount
        omega
      · intro g' hg'
        exact hall g' (List.mem_cons_of_mem _ hg')

/-- Skipped zero-fork repositories contribute nothing: the contrib-ratio
command computes the same output on the filtered repository list. -/
theorem getTopContribRatioRepos_filter (repos : List RepoRecord) (m : Option Int) :
    getTopContribRatioRepos repos m
      = getTopContribRatioRepos (repos.filter fun r => r.forks_count ≠ 0) m := by
  rw [getTopContribRatioRepos, getTopContribRatioRepos]
  cases hmk : @mkSizeConstrainedMaxHeap (ℚ × String) m with
  | error e => rfl
  | ok h0 =>
    simp only [Except.map]
    congr 2
    have h1 := foldl_condPush_eq_filter candLtQ
      (fun r : RepoRecord => r.forks_count ≠ 0)
      (fun r : RepoRecord => ((r.num_pulls : ℚ) / (r.forks_count : ℚ), r.name)) repos h0
    have h2 := foldl_condPush_eq_filter candLtQ
      (fun r : RepoRecord => r.forks_count ≠ 0)
      (fun r : RepoRecord => ((r.num_pulls : ℚ) / (r.forks_count : ℚ), r.name))
      (repos.filter fun r => r.forks_count ≠ 0) h0
    rw [h1, h2, List.filter_filter]
    have hand : (fun (r : RepoRecord) =>
        decide (r.forks_count ≠ 0) && decide (r.forks_count ≠ 0))
        = fun r => decide (r.forks_count ≠ 0) := funext fun r => Bool.and_self _
    rw [hand]

theorem pyFloatRepr_two : pyFloatRepr 2 = "2.0" := by
  rw [pyFloatRepr]
  rw [show ratFloor 2 = 2 by rw [ratFloor]; norm_num]
  rw [show (2 : ℚ) - ((2 : Int) : ℚ) = 0 by norm_num]
  rw [show decimalDigits 17 0 = [] by decide]
  rfl

/-! ### Pagination lemmas -/

theorem range_succ_map_join {γ : Type} (g : Nat → List γ) (k : Nat) :
    (((List.range (k + 1)).map fun j => g j).flatten)
      = g 0 ++ ((List.range k).map fun j => g (j + 1)).flatten := by
  rw [List.range_succ_eq_map, List.map_cons, List.map_map, List.flatten_cons]
  rfl

theorem range_succ_map_fn (g : Nat → Nat) (k : Nat) :
    (List.range (k + 1)).map g = g 0 :: (List.range k).map fun j => g (j + 1) := by
  rw [List.range_succ_eq_map, List.map_cons, List.map_map]
  rfl

/-- A pagination run starting at page `s` with the first empty page at
offset `k` yields the items of the `k` non-empty pages in order and
requests exactly the `k+1` consecutive pages `s, s+1, ..., s+k`. -/
theorem listAllLoop_run {γ : Type} (remote : Nat → List γ) :
    ∀ (k s fuel : Nat), remote (s + k) = [] → (∀ j, j < k → remote (s + j) ≠ []) →
      k + 1 ≤ fuel →
      listAllLoop remote s fuel
        = (((List.range k).map fun j => remote (s + j)).flatten,
           (List.range (k + 1)).map fun j => s + j) := by
  intro k
  induction k with
  | zero =>
    intro s fuel hempty hne hfuel
    obtain ⟨f, rfl⟩ : ∃ f, fuel = f + 1 := ⟨fuel - 1, by omega⟩
    rw [listAllLoop]
    rw [show s + 0 = s from rfl] at hempty
    rw [hempty]
    simp [List.range_succ]
  | succ k ih =>
    intro s fuel hempty hne hfuel
    obtain ⟨f, rfl⟩ : ∃ f, fuel = f + 1 := ⟨fuel - 1, by omega⟩
    rw [listAllLoop]
    have hs : remote s ≠ [] := by
      have h0 := hne 0 (by omega)
      rwa [show s + 0 = s from rfl] at h0
    rw [if_neg (by simpa [List.length_eq_zero] using hs)]
    rw [ih (s + 1) f (by rw [show s + 1 + k = s + (k + 1) by omega]; exact hempty)
      (fun j hj => by
        rw [show s + 1 + j = s + (j + 1) by omega]
        exact hne (j + 1) (by omega))
      (by omega)]
    rw [range_succ_map_join (fun j => remote (s + j)) k,
      range_succ_map_fn (fun j => s + j) (k + 1)]
    have hfun1 : ((List.range k).map fun j => remote (s + (j + 1)))
        = (List.range k).map fun j => remote (s + 1 + j) := by
      apply List.map_congr_left
      intro j _
      congr 1
      omega
    have hfun2 : ((List.range (k + 1)).map fun j => s + (j + 1))
        = (List.range (k + 1)).map fun j => s + 1 + j := by
      apply List.map_congr_left
      intro j _
      omega
    dsimp only
    rw [hfun1, hfun2]
    simp

/-! ## Claims -/

/-- C1 (code bug evaluation): with `max_items = 2`, pushing the keys 10, 1
and 5 leaves the selector holding `(10,"a")` and `(1,"b")` — the truncation
`del self._heap[2:]` removed `(5,"c")`, one of the two largest candidates
ever pushed, so the selector does not contain the `k` candidates with the
largest keys, contradicting the claimed invariant (and the class's own
docstring: "truncate the heap after N biggest items"). -/
theorem C1_truncation_keeps_array_prefix :
    (@mkSizeConstrainedMaxHeap (Nat × String) (some 2)).map
      (fun h0 =>
        ((([((10 : Nat), "a"), (1, "b"), (5, "c")].foldl
          (fun s c => s.push candLtN c) h0).heap),
         (([((10 : Nat), "a"), (1, "b"), (5, "c")].foldl
          (fun s c => s.push candLtN c) h0).drain candLtN)))
      = Except.ok ([(10, "a"), (1, "b")], [(10, "a"), (1, "b")]) := by
  rfl

/-- C2 (code bug evaluation): for the `stars` action with bound 2 and the
outer pagination yielding `A(stars=50)`, `B(stars=10)`, `C(stars=90)` in
that order, the code outputs `C:90` then `B:10` — not `C:90` then `A:50`
as the claim (and the selector's documented top-K behavior) requires:
pushing `C` sifts `(90,"C")` to the root, moving `(50,"A")` into the array
slot that `del self._heap[2:]` then deletes. -/
theorem C2_stars_scenario_outputs_B_not_A :
    getTopStarRepos [⟨"A", 50, 0, 0⟩, ⟨"B", 10, 0, 0⟩, ⟨"C", 90, 0, 0⟩] (some 2)
      = Except.ok ["C:90", "B:10"] := by
  rfl

/-- C3: for every bound and every sequence of pushes, repeatedly popping
until empty yields the retained candidates in non-increasing sort-key
order, and `pop()` fails (the `IndexError` of `heapq.heappop`, modelled as
`none`) exactly on an empty selector — the selector is left unchanged in
that case since `heap.pop()` raises before any mutation. -/
theorem C3_drain_sorted_and_pop_iff_empty :
    ∀ (m : Option Nat) (pushes : List (ℚ × String)),
      (((pushes.foldl (fun t c => t.push candLtQ c)
          (⟨m, []⟩ : SizeConstrainedMaxHeap (ℚ × String))).drain candLtQ).Pairwise
        fun a b => b.1 ≤ a.1)
      ∧ ∀ t : SizeConstrainedMaxHeap (ℚ × String), (t.pop candLtQ = none ↔ t.heap = []) := by
  intro m pushes
  refine ⟨?_, fun t => pop_eq_none_iff candLtQ t⟩
  have hinv : HeapInv candValQ
      ((pushes.foldl (fun t c => t.push candLtQ c)
        (⟨m, []⟩ : SizeConstrainedMaxHeap (ℚ × String))).heap) :=
    foldl_push_heapInv invertedLt_candLtQ pushes ⟨m, []⟩ (heapInv_nil candValQ)
  have hd := (drainLoop_correct invertedLt_candLtQ
    ((pushes.foldl (fun t c => t.push candLtQ c)
      (⟨m, []⟩ : SizeConstrainedMaxHeap (ℚ × String))).heap.length)
    (pushes.foldl (fun t c => t.push candLtQ c) ⟨m, []⟩) hinv).1
  rw [SizeConstrainedMaxHeap.drain]
  exact hd.imp fun h => candValQ_le_key h

/-- C4 (amended): a 403 whose `X-RateLimit-Remaining` header equals `"0"`
raises Rate Limit Exceeded carrying the hourly limit header and the
reset delta `round(max(0, (reset − now) / 60), 2)` when those headers are
present; a 403 with any other remaining value, and every other response
with a 4xx/5xx status, re-raises the generic `requests.HTTPError`
(Transient Request Failure).  Statuses outside 400–599 — including
non-2xx 3xx responses — are not raised at all (`raise_for_status` only
raises for 400–599), which is where the original claim fails. -/
theorem C4_rate_limit_classification {β : Type} (resp : HTTPResponse β) (now : ℚ) :
    (resp.status_code = 403 → resp.x_ratelimit_remaining = some "0" →
      processResponse resp now = PaginateOutcome.rateLimitExceeded resp.url
        resp.x_ratelimit_limit
        (resp.x_ratelimit_reset.map fun r => pyRound2 (max 0 (((r : ℚ) - now) / 60))))
    ∧ (400 ≤ resp.status_code → resp.status_code < 600 →
        ¬(resp.status_code = 403 ∧ resp.x_ratelimit_remaining = some "0") →
        processResponse resp now = PaginateOutcome.httpError resp.status_code resp.url)
    ∧ (resp.status_code < 400 ∨ 600 ≤ resp.status_code →
        processResponse resp now = PaginateOutcome.ok resp.body) := by
  refine ⟨?_, ?_, ?_⟩
  · intro h403 hrem
    rw [processResponse, if_pos (by omega), if_pos ⟨h403, hrem⟩]
  · intro h4 h6 hnot
    rw [processResponse, if_pos ⟨h4, h6⟩, if_neg hnot]
  · intro hout
    rw [processResponse, if_neg (by omega)]

/-- C4 counterexample: a 304 response is not 2xx, yet the paginator does
not raise any Transient Request Failure for it — `raise_for_status` only
raises for 400–599, so the response proceeds to `response.json()`.  This
refutes the claim's "every other non-2xx response propagates as a generic
Transient Request Failure". -/
theorem C4_non2xx_304_not_an_error :
    processResponse (⟨304, some "0", none, none, "u", ()⟩ : HTTPResponse Unit) 0
      = PaginateOutcome.ok () := by
  rfl

/-- C4 witness: the three branches of the classification at concrete
responses. -/
theorem C4_rate_limit_classification_witness :
    processResponse (⟨403, some "0", some "5000", some 3600, "u", ()⟩ : HTTPResponse Unit) 0
      = PaginateOutcome.rateLimitExceeded "u" (some "5000")
          ((some (3600 : Int)).map fun r => pyRound2 (max 0 (((r : ℚ) - 0) / 60)))
    ∧ processResponse (⟨403, some "1", none, none, "u", ()⟩ : HTTPResponse Unit) 0
      = PaginateOutcome.httpError 403 "u"
    ∧ processResponse (⟨500, none, none, none, "u", ()⟩ : HTTPResponse Unit) 0
      = PaginateOutcome.httpError 500 "u" := by
  refine ⟨?_, ?_, ?_⟩
  · exact (C4_rate_limit_classification _ _).1 rfl rfl
  · exact (C4_rate_limit_classification _ _).2.1 (by norm_num) (by norm_num) (by simp)
  · exact (C4_rate_limit_classification _ _).2.1 (by norm_num) (by norm_num) (by simp)

/-- C5: fed pages whose first empty page is page `n+1`, the pagination as
consumed by `list_all_sources` yields exactly the items of the non-empty
pages 1..n in order, and the requests issued are exactly for pages
1, 2, ..., n+1 — numbering starts at 1, increments by 1 per request, and
no page after the first empty one is ever requested (the result does not
depend on `remote` beyond page `n+1`, nor on any fuel `≥ n+1`). -/
theorem C5_pagination_stops_at_first_empty_page {γ : Type} (remote : Nat → List γ)
    (n : Nat) (hempty : remote (n + 1) = [])
    (hne : ∀ i, 1 ≤ i → i ≤ n → remote i ≠ [])
    (fuel : Nat) (hfuel : n + 1 ≤ fuel) :
    list_all_sources remote fuel
      = (((List.range n).map fun j => remote (1 + j)).flatten,
         (List.range (n + 1)).map fun j => 1 + j) := by
  rw [list_all_sources]
  exact listAllLoop_run remote n 1 fuel
    (by rw [show 1 + n = n + 1 by omega]; exact hempty)
    (fun j hj => hne (1 + j) (by omega) (by omega))
    hfuel

/-- C5 witness: three pages `[1]`, `[2]`, `[]` yield items `[1, 2]` and
requests for pages 1, 2, 3 only. -/
theorem C5_pagination_witness :
    list_all_sources (fun i => if i ≤ 2 then [i] else []) 5 = ([1, 2], [1, 2, 3]) := by
  have h := C5_pagination_stops_at_first_empty_page (fun i => if i ≤ 2 then [i] else []) 2
    (by decide) (fun i h1 h2 => by interval_cases i <;> decide) 5 (by decide)
  rw [h]
  rfl

/-- C6: a repository with zero forks is skipped entirely by the
contrib-ratio command: the output equals the output on the repository list
with all zero-forks repositories removed, and every output line stems from
a repository with non-zero forks (whose key is the true division
`num_pulls / forks_count`). -/
theorem C6_zero_forks_skipped :
    ∀ (repos : List RepoRecord) (m : Option Int),
      getTopContribRatioRepos repos m
        = getTopContribRatioRepos (repos.filter fun r => r.forks_count ≠ 0) m
      ∧ ∀ lines, getTopContribRatioRepos repos m = Except.ok lines →
          ∀ line ∈ lines, ∃ r ∈ repos, r.forks_count ≠ 0 ∧
            line = r.name ++ ":" ++ pyFloatRepr ((r.num_pulls : ℚ) / (r.forks_count : ℚ)) := by
  intro repos m
  refine ⟨getTopContribRatioRepos_filter repos m, ?_⟩
  intro lines hlines line hline
  rw [getTopContribRatioRepos] at hlines
  cases hmk : @mkSizeConstrainedMaxHeap (ℚ × String) m with
  | error e =>
    rw [hmk] at hlines
    simp [Except.map] at hlines
  | ok h0 =>
    rw [hmk] at hlines
    simp only [Except.map, Except.ok.injEq] at hlines
    subst hlines
    rcases List.mem_map.mp hline with ⟨c, hc, rfl⟩
    have hheap0 : h0.heap = [] := mk_ok_heap hmk
    have hinv := foldl_condPush_heapInv invertedLt_candLtQ
      (fun r : RepoRecord => r.forks_count ≠ 0)
      (fun r : RepoRecord => ((r.num_pulls : ℚ) / (r.forks_count : ℚ), r.name)) repos h0
      (by rw [hheap0]; exact heapInv_nil _)
    have hsub := (drainLoop_correct invertedLt_candLtQ _ _ hinv).2 c hc
    rcases mem_foldl_condPush candLtQ
      (fun r : RepoRecord => r.forks_count ≠ 0)
      (fun r : RepoRecord => ((r.num_pulls : ℚ) / (r.forks_count : ℚ), r.name))
      repos h0 c hsub with hc0 | ⟨r, hr, hcond, rfl⟩
    · rw [hheap0] at hc0
      simp at hc0
    · exact ⟨r, hr, hcond, rfl⟩

/-- C6 witness: a single zero-forks repository produces the same (empty)
output as the empty repository list. -/
theorem C6_zero_forks_skipped_witness :
    getTopContribRatioRepos [⟨"Z", 0, 0, 7⟩] (some 5)
      = getTopContribRatioRepos ([⟨"Z", 0, 0, 7⟩].filter fun r => r.forks_count ≠ 0) (some 5)
    ∧ getTopContribRatioRepos [⟨"Z", 0, 0, 7⟩] (some 5) = Except.ok [] :=
  ⟨(C6_zero_forks_skipped [⟨"Z", 0, 0, 7⟩] (some 5)).1, by rfl⟩

/-- C7: the contrib-ratio sort key is the true (exact) division of the
pull-request count by the forks count, and when the outer pagination
yields only zero-forks repositories except one occurrence of
`D(forks=4, pulls=8)`, the output (at the default bound 5) is exactly the
single line `D:2.0` — `8 / 4 = 2.0` rendered as Python renders an
integral float. -/
theorem C7_contrib_ratio_true_division_scenario (repos : List RepoRecord)
    (hmem : (⟨"D", 0, 4, 8⟩ : RepoRecord) ∈ repos)
    (hcount : repos.count ⟨"D", 0, 4, 8⟩ = 1)
    (hall : ∀ r ∈ repos, r = ⟨"D", 0, 4, 8⟩ ∨ r.forks_count = 0) :
    getTopContribRatioRepos repos (some 5) = Except.ok ["D:2.0"] := by
  have hfilter : repos.filter (fun r => decide (r.forks_count ≠ 0)) = [⟨"D", 0, 4, 8⟩] :=
    filter_eq_single (fun r : RepoRecord => decide (r.forks_count ≠ 0)) ⟨"D", 0, 4, 8⟩
      (by decide) repos hmem hcount
      (fun g hg => (hall g hg).imp id fun h0 => by simp [h0])
  rw [getTopContribRatioRepos_filter]
  rw [show (repos.filter fun r => r.forks_count ≠ 0) = [⟨"D", 0, 4, 8⟩] from hfilter]
  rw [show getTopContribRatioRepos [⟨"D", 0, 4, 8⟩] (some 5)
      = Except.ok ["D" ++ ":" ++ pyFloatRepr (((8 : Nat) : ℚ) / ((4 : Nat) : ℚ))] from rfl]
  rw [show (((8 : Nat) : ℚ) / ((4 : Nat) : ℚ)) = (2 : ℚ) by norm_num, pyFloatRepr_two]
  rfl

/-- C7 witness: a concrete repository list with two zero-forks companions
around `D`. -/
theorem C7_contrib_ratio_witness :
    getTopContribRatioRepos [⟨"X", 0, 0, 9⟩, ⟨"D", 0, 4, 8⟩, ⟨"Y", 3, 0, 0⟩] (some 5)
      = Except.ok ["D:2.0"] :=
  C7_contrib_ratio_true_division_scenario _ (by decide) (by decide) (by decide)

/-- C8: construction with a negative bound fails with the `ValueError`
message; construction with `None` succeeds with an unbounded selector, and
with no bound configured a push never truncates — the heap grows by
exactly one element per push. -/
theorem C8_constructor_validates_max_items :
    (∀ m : Int, m < 0 →
      @mkSizeConstrainedMaxHeap (ℚ × String) (some m)
        = Except.error ("Expected non-negative max_items, but got " ++ toString m))
    ∧ @mkSizeConstrainedMaxHeap (ℚ × String) none = Except.ok ⟨none, []⟩
    ∧ ∀ (s : SizeConstrainedMaxHeap (ℚ × String)) (x : ℚ × String),
        s.max_items = none → (s.push candLtQ x).heap.length = s.heap.length + 1 := by
  refine ⟨?_, rfl, ?_⟩
  · intro m hm
    rw [mkSizeConstrainedMaxHeap, if_pos hm]
  · intro s x hnone
    obtain ⟨mi, hp⟩ := s
    have h' : mi = none := hnone
    subst h'
    show (heappush (invertedLt candLtQ) hp x).length = hp.length + 1
    exact heappush_length _ _ _

/-- C8 witness: `max_items = -1` is rejected, and an unbounded push grows
the empty selector to one element. -/
theorem C8_constructor_validates_max_items_witness :
    @mkSizeConstrainedMaxHeap (ℚ × String) (some (-1))
      = Except.error ("Expected non-negative max_items, but got " ++ toString (-1 : Int))
    ∧ ((⟨none, []⟩ : SizeConstrainedMaxHeap (ℚ × String)).push candLtQ (1, "a")).heap.length
        = 1 :=
  ⟨C8_constructor_validates_max_items.1 (-1) (by norm_num),
   C8_constructor_validates_max_items.2.2 ⟨none, []⟩ (1, "a") rfl⟩

/-- C9: a selector constructed with `max_items = 0` (the state
`mkSizeConstrainedMaxHeap (some 0)` returns) has an empty heap after every
sequence of pushes — every push truncates straight back to `[]` — and its
drain is empty. -/
theorem C9_max_zero_always_empty :
    @mkSizeConstrainedMaxHeap (ℚ × String) (some 0) = Except.ok ⟨some 0, []⟩
    ∧ ∀ pushes : List (ℚ × String),
        (pushes.foldl (fun t c => t.push candLtQ c)
          (⟨some 0, []⟩ : SizeConstrainedMaxHeap (ℚ × String))).heap = []
        ∧ (pushes.foldl (fun t c => t.push candLtQ c)
            (⟨some 0, []⟩ : SizeConstrainedMaxHeap (ℚ × String))).drain candLtQ = [] := by
  have key : ∀ (pushes : List (ℚ × String)) (s : SizeConstrainedMaxHeap (ℚ × String)),
      s.max_items = some 0 → s.heap = [] →
      (pushes.foldl (fun t c => t.push candLtQ c) s).heap = []
      ∧ (pushes.foldl (fun t c => t.push candLtQ c) s).max_items = some 0 := by
    intro pushes
    induction pushes with
    | nil =>
      intro s h1 h2
      exact ⟨h2, h1⟩
    | cons c cs ih =>
      intro s h1 h2
      rw [List.foldl_cons]
      exact ih _ (push_max0 s c h1).2 (push_max0 s c h1).1
  refine ⟨rfl, ?_⟩
  intro pushes
  obtain ⟨hh, _⟩ := key pushes ⟨some 0, []⟩ rfl rfl
  refine ⟨hh, ?_⟩
  rw [SizeConstrainedMaxHeap.drain, hh]
  rfl

/-- C10: among retained candidates with equal sort keys, the drain order is
descending by label (Python compares the stored `(key, name)` tuples, and
the inverted wrapper makes `pop()` return the tuple-largest first): if two
drain positions `i < j` hold equal keys, the label at `j` is `≤` the label
at `i` in code-point lexicographic order. -/
theorem C10_ties_drain_descending_by_label :
    ∀ (m : Option Nat) (pushes : List (Nat × String)) (i j : Nat),
      i < j →
      (hj : j < ((pushes.foldl (fun t c => t.push candLtN c)
          (⟨m, []⟩ : SizeConstrainedMaxHeap (Nat × String))).drain candLtN).length) →
      (nthD ((pushes.foldl (fun t c => t.push candLtN c)
          (⟨m, []⟩ : SizeConstrainedMaxHeap (Nat × String))).drain candLtN) i).1
        = (nthD ((pushes.foldl (fun t c => t.push candLtN c)
          (⟨m, []⟩ : SizeConstrainedMaxHeap (Nat × String))).drain candLtN) j).1 →
      (nthD ((pushes.foldl (fun t c => t.push candLtN c)
          (⟨m, []⟩ : SizeConstrainedMaxHeap (Nat × String))).drain candLtN) j).2.data
        ≤ (nthD ((pushes.foldl (fun t c => t.push candLtN c)
          (⟨m, []⟩ : SizeConstrainedMaxHeap (Nat × String))).drain candLtN) i).2.data := by
  intro m pushes i j hij hj hkey
  have hinv : HeapInv candValN
      ((pushes.foldl (fun t c => t.push candLtN c)
        (⟨m, []⟩ : SizeConstrainedMaxHeap (Nat × String))).heap) :=
    foldl_push_heapInv invertedLt_candLtN pushes ⟨m, []⟩ (heapInv_nil candValN)
  have hd := (drainLoop_correct invertedLt_candLtN
    ((pushes.foldl (fun t c => t.push candLtN c)
      (⟨m, []⟩ : SizeConstrainedMaxHeap (Nat × String))).heap.length)
    (pushes.foldl (fun t c => t.push candLtN c) ⟨m, []⟩) hinv).1
  rw [SizeConstrainedMaxHeap.drain] at hj hkey ⊢
  have hi : i < (drainLoop candLtN
      ((pushes.foldl (fun t c => t.push candLtN c)
        (⟨m, []⟩ : SizeConstrainedMaxHeap (Nat × String))).heap.length)
      (pushes.foldl (fun t c => t.push candLtN c) ⟨m, []⟩)).length := by omega
  have hget := List.pairwise_iff_get.mp hd ⟨i, hi⟩ ⟨j, hj⟩ hij
  rw [nthD_eq_get hi, nthD_eq_get hj] at hkey ⊢
  rcases candValN_le_parts hget with hlt | ⟨heq, hle⟩
  · exfalso
    omega
  · exact hle

/-- C10 witness: pushing `(1,"a")` then `(1,"b")` drains `(1,"b")` before
`(1,"a")`, so position 1 carries the smaller label. -/
theorem C10_ties_drain_descending_by_label_witness :
    (nthD (([((1 : Nat), "a"), (1, "b")].foldl (fun t c => t.push candLtN c)
        (⟨none, []⟩ : SizeConstrainedMaxHeap (Nat × String))).drain candLtN) 1).2.data
      ≤ (nthD (([((1 : Nat), "a"), (1, "b")].foldl (fun t c => t.push candLtN c)
        (⟨none, []⟩ : SizeConstrainedMaxHeap (Nat × String))).drain candLtN) 0).2.data :=
  C10_ties_drain_descending_by_label none [((1 : Nat), "a"), (1, "b")] 0 1
    (by decide) (by decide) (by decide)

end Yagpy
